import Mathlib

/-!
Shallow embedding of the cipher engine in `src/encrypt.py` of the
HIT137CDU repository, together with theorems checking the natural-language
specification of the transform against this embedding.

Modelling choices:

* A Python string is a sequence of Unicode code points; we model it as
  `List Char` (Lean `Char` is a Unicode scalar value).
* Python integers are unbounded, so shift keys are `Int`.  Python's `%`
  with a positive modulus returns a value in `[0, modulus)`, which is
  exactly Lean's `Int.emod` (`%`) with a positive right operand.
* `str.islower` / `str.isupper` in Python are Unicode-aware, while the
  predicates below test only the ASCII ranges `a`–`z` / `A`–`Z`.  This is
  observationally equivalent for every function embedded here: a
  non-ASCII cased character enters the `islower`/`isupper` branch in
  Python, fails both 13-letter membership tests there, and is returned
  unchanged with metadata `'0'` — exactly what the `else` branch of the
  ASCII predicates produces.
* The Python `set(...)` constants are modelled as the corresponding
  lists with decidable membership; only membership is ever used.
* `decrypt_text_with_meta` raises `ValueError` on a length mismatch;
  fallible code is embedded as `Except String`.  The error is raised
  before the result list is built, so the embedding returns `.error`
  without computing any output character.
-/

namespace Encrypt

/-- `ALPHA_LOWER = "abcdefghijklmnopqrstuvwxyz"` from the source. -/
def ALPHA_LOWER : List Char := "abcdefghijklmnopqrstuvwxyz".data

/-- `ALPHA_UPPER = "ABCDEFGHIJKLMNOPQRSTUVWXYZ"` from the source. -/
def ALPHA_UPPER : List Char := "ABCDEFGHIJKLMNOPQRSTUVWXYZ".data

/-- `LOWER_FIRST = set("abcdefghijklm")` from the source. -/
def LOWER_FIRST : List Char := "abcdefghijklm".data

/-- `LOWER_SECOND = set("nopqrstuvwxyz")` from the source. -/
def LOWER_SECOND : List Char := "nopqrstuvwxyz".data

/-- `UPPER_FIRST = set("ABCDEFGHIJKLM")` from the source. -/
def UPPER_FIRST : List Char := "ABCDEFGHIJKLM".data

/-- `UPPER_SECOND = set("NOPQRSTUVWXYZ")` from the source. -/
def UPPER_SECOND : List Char := "NOPQRSTUVWXYZ".data

/-- Python `c.islower()`, restricted to its observable effect here:
membership in ASCII `a`–`z` (see the module comment). -/
def islower (c : Char) : Prop := 'a' ≤ c ∧ c ≤ 'z'

/-- Python `c.isupper()`, restricted to its observable effect here:
membership in ASCII `A`–`Z` (see the module comment). -/
def isupper (c : Char) : Prop := 'A' ≤ c ∧ c ≤ 'Z'

instance (c : Char) : Decidable (islower c) := by unfold islower; infer_instance

instance (c : Char) : Decidable (isupper c) := by unfold isupper; infer_instance

/-- `_shift_char` from `src/encrypt.py`: return `c` when it is not in
`alphabet`, otherwise the alphabet character at index
`(index_of c + shift) % len(alphabet)`.  The `getD` default is
unreachable because the index is a residue modulo the length. -/
def shift_char (c : Char) (shift : Int) (alphabet : List Char) : Char :=
  if c ∉ alphabet then c
  else alphabet.getD (((alphabet.indexOf c : Int) + shift) % (alphabet.length : Int)).toNat c

/-- `_encrypt_char` from `src/encrypt.py`. -/
def encrypt_char (c : Char) (shift1 shift2 : Int) : Char :=
  if islower c then
    if c ∈ LOWER_FIRST then shift_char c (shift1 * shift2) ALPHA_LOWER
    else if c ∈ LOWER_SECOND then shift_char c (-(shift1 + shift2)) ALPHA_LOWER
    else c
  else if isupper c then
    if c ∈ UPPER_FIRST then shift_char c (-shift1) ALPHA_UPPER
    else if c ∈ UPPER_SECOND then shift_char c (shift2 ^ 2) ALPHA_UPPER
    else c
  else c

/-- `_decrypt_char` from `src/encrypt.py` (the metadata-free heuristic). -/
def decrypt_char (c : Char) (shift1 shift2 : Int) : Char :=
  if islower c then
    if shift_char c (-(shift1 * shift2)) ALPHA_LOWER ∈ LOWER_FIRST then
      shift_char c (-(shift1 * shift2)) ALPHA_LOWER
    else shift_char c (shift1 + shift2) ALPHA_LOWER
  else if isupper c then
    if shift_char c shift1 ALPHA_UPPER ∈ UPPER_FIRST then
      shift_char c shift1 ALPHA_UPPER
    else shift_char c (-(shift2 ^ 2)) ALPHA_UPPER
  else c

/-- `encrypt_text` from `src/encrypt.py`. -/
def encrypt_text (text : List Char) (shift1 shift2 : Int) : List Char :=
  text.map fun c => encrypt_char c shift1 shift2

/-- Loop body of `encrypt_text_with_meta`: the encrypted character paired
with the metadata code appended for it. -/
def encrypt_char_with_meta (c : Char) (shift1 shift2 : Int) : Char × Char :=
  if islower c then
    if c ∈ LOWER_FIRST then (shift_char c (shift1 * shift2) ALPHA_LOWER, 'l')
    else if c ∈ LOWER_SECOND then (shift_char c (-(shift1 + shift2)) ALPHA_LOWER, 'L')
    else (c, '0')
  else if isupper c then
    if c ∈ UPPER_FIRST then (shift_char c (-shift1) ALPHA_UPPER, 'u')
    else if c ∈ UPPER_SECOND then (shift_char c (shift2 ^ 2) ALPHA_UPPER, 'U')
    else (c, '0')
  else (c, '0')

/-- `encrypt_text_with_meta` from `src/encrypt.py`: the ciphertext and the
sidecar metadata, built in lockstep over the input. -/
def encrypt_text_with_meta (text : List Char) (shift1 shift2 : Int) :
    List Char × List Char :=
  match text with
  | [] => ([], [])
  | c :: rest =>
      let p := encrypt_char_with_meta c shift1 shift2
      let q := encrypt_text_with_meta rest shift1 shift2
      (p.1 :: q.1, p.2 :: q.2)

/-- `decrypt_text` from `src/encrypt.py` (heuristic, metadata-free). -/
def decrypt_text (text : List Char) (shift1 shift2 : Int) : List Char :=
  text.map fun c => decrypt_char c shift1 shift2

/-- Loop body of `decrypt_text_with_meta`: dispatch on the metadata code
`m` and apply the inverse shift to the ciphertext character `c`. -/
def decrypt_meta_char (c m : Char) (shift1 shift2 : Int) : Char :=
  if m = 'l' then shift_char c (-(shift1 * shift2)) ALPHA_LOWER
  else if m = 'L' then shift_char c (shift1 + shift2) ALPHA_LOWER
  else if m = 'u' then shift_char c shift1 ALPHA_UPPER
  else if m = 'U' then shift_char c (-(shift2 ^ 2)) ALPHA_UPPER
  else c

/-- `decrypt_text_with_meta` from `src/encrypt.py`: `ValueError` on a
length mismatch (raised before any output character is computed),
otherwise the per-position metadata-directed inverse. -/
def decrypt_text_with_meta (ciphertext metadata : List Char)
    (shift1 shift2 : Int) : Except String (List Char) :=
  if ciphertext.length ≠ metadata.length then
    .error "Ciphertext and metadata lengths do not match"
  else
    .ok ((ciphertext.zip metadata).map fun p => decrypt_meta_char p.1 p.2 shift1 shift2)

/-- Category of a character, as the spec's five-variant enumeration
(spec section 3 and design note in section 9). -/
inductive Category where
  | lower_first
  | lower_second
  | upper_first
  | upper_second
  | passthrough
deriving DecidableEq

/-- The spec's character classifier (section 4.1): each character falls in
exactly one of the four 13-letter quadrants or is passthrough. -/
def classify (c : Char) : Category :=
  if c ∈ LOWER_FIRST then .lower_first
  else if c ∈ LOWER_SECOND then .lower_second
  else if c ∈ UPPER_FIRST then .upper_first
  else if c ∈ UPPER_SECOND then .upper_second
  else .passthrough

/-- The spec's shift function (section 4.2): the character at position
`(index_of c + shift) mod 26` of the alphabet, characters outside the
alphabet passing through unchanged. -/
def spec_index_shift (alphabet : List Char) (c : Char) (s : Int) : Char :=
  if c ∉ alphabet then c
  else alphabet.getD (((alphabet.indexOf c : Int) + s) % 26).toNat c

/-- The spec's forward transform table (section 4.3), dispatched on the
classifier. -/
def spec_encrypt_char (c : Char) (shift1 shift2 : Int) : Char :=
  match classify c with
  | .lower_first => spec_index_shift ALPHA_LOWER c (shift1 * shift2)
  | .lower_second => spec_index_shift ALPHA_LOWER c (-(shift1 + shift2))
  | .upper_first => spec_index_shift ALPHA_UPPER c (-shift1)
  | .upper_second => spec_index_shift ALPHA_UPPER c (shift2 * shift2)
  | .passthrough => c

/-! Basic facts about the alphabets and the classifier sets. -/

theorem alpha_lower_nodup : ALPHA_LOWER.Nodup := by decide

theorem alpha_upper_nodup : ALPHA_UPPER.Nodup := by decide

theorem alpha_lower_len : ALPHA_LOWER.length = 26 := by decide

theorem alpha_upper_len : ALPHA_UPPER.length = 26 := by decide

theorem mem_LF_facts : ∀ c ∈ LOWER_FIRST, islower c ∧ c ∈ ALPHA_LOWER := by decide

theorem mem_LS_facts : ∀ c ∈ LOWER_SECOND, islower c ∧ c ∈ ALPHA_LOWER := by decide

theorem mem_UF_facts : ∀ c ∈ UPPER_FIRST, isupper c ∧ ¬ islower c ∧ c ∈ ALPHA_UPPER := by
  decide

theorem mem_US_facts : ∀ c ∈ UPPER_SECOND, isupper c ∧ ¬ islower c ∧ c ∈ ALPHA_UPPER := by
  decide

theorem mem_alpha_lower_islower : ∀ c ∈ ALPHA_LOWER, islower c := by decide

theorem mem_alpha_upper_isupper : ∀ c ∈ ALPHA_UPPER, isupper c := by decide

theorem islower_not_isupper {c : Char} (h : islower c) : ¬ isupper c :=
  fun hu => absurd (le_trans h.1 hu.2) (by decide)

/-! Facts about `shift_char`. -/

/-- A character outside the alphabet passes through `shift_char` unchanged
(the defensive guard of `_shift_char`). -/
theorem shift_char_of_not_mem {c : Char} {A : List Char} (h : c ∉ A) (s : Int) :
    shift_char c s A = c := by
  unfold shift_char
  exact if_pos h

/-- On a member of a 26-letter duplicate-free alphabet, `shift_char` lands
at the residue index `(indexOf c + s) % 26`. -/
theorem shift_char_of_mem {c : Char} {A : List Char} (h26 : A.length = 26)
    (hc : c ∈ A) (s : Int) :
    ∃ h : (((A.indexOf c : Int) + s) % 26).toNat < A.length,
      shift_char c s A = A.get ⟨(((A.indexOf c : Int) + s) % 26).toNat, h⟩ := by
  have hidx : A.indexOf c < A.length := List.indexOf_lt_length.mpr hc
  have hj : (((A.indexOf c : Int) + s) % 26).toNat < A.length := by omega
  refine ⟨hj, ?_⟩
  have h26i : (A.length : Int) = 26 := by exact_mod_cast h26
  unfold shift_char
  rw [if_neg (not_not_intro hc)]
  conv_lhs => rw [h26i]
  rw [List.getD_eq_getElem A c hj]
  exact (List.get_eq_getElem A ⟨_, hj⟩).symm

/-- Shifting by `s` and then by `-s` within a 26-letter duplicate-free
alphabet recovers the original member. -/
theorem shift_shift_cancel {A : List Char} (hA : A.Nodup) (h26 : A.length = 26)
    {c : Char} (hc : c ∈ A) (s : Int) :
    shift_char (shift_char c s A) (-s) A = c := by
  have hidx : A.indexOf c < A.length := List.indexOf_lt_length.mpr hc
  obtain ⟨hj, h1⟩ := shift_char_of_mem h26 hc s
  have hmem1 : shift_char c s A ∈ A := by
    rw [h1]; exact A.get_mem _ _
  have hidx1 : A.indexOf (shift_char c s A) = (((A.indexOf c : Int) + s) % 26).toNat := by
    rw [h1]; exact List.get_indexOf hA _
  obtain ⟨hj2, h2⟩ := shift_char_of_mem h26 hmem1 (-s)
  have hkey : (((A.indexOf (shift_char c s A) : Int) + -s) % 26).toNat = A.indexOf c := by
    rw [hidx1]; omega
  rw [h2]
  have hfin : (⟨(((A.indexOf (shift_char c s A) : Int) + -s) % 26).toNat, hj2⟩ :
      Fin A.length) = ⟨A.indexOf c, hidx⟩ := Fin.ext hkey
  rw [hfin]
  exact List.indexOf_get hidx

/-! Per-character and per-list helper lemmas. -/

/-- Metadata-directed decryption inverts the metadata-producing
encryption on every single character. -/
theorem decrypt_meta_char_encrypt (c : Char) (s1 s2 : Int) :
    decrypt_meta_char (encrypt_char_with_meta c s1 s2).1
      (encrypt_char_with_meta c s1 s2).2 s1 s2 = c := by
  by_cases hl : islower c
  · by_cases h1 : c ∈ LOWER_FIRST
    · have heq : encrypt_char_with_meta c s1 s2 =
          (shift_char c (s1 * s2) ALPHA_LOWER, 'l') := by
        unfold encrypt_char_with_meta
        rw [if_pos hl, if_pos h1]
      rw [heq]
      show shift_char (shift_char c (s1 * s2) ALPHA_LOWER) (-(s1 * s2)) ALPHA_LOWER = c
      exact shift_shift_cancel alpha_lower_nodup alpha_lower_len (mem_LF_facts c h1).2 _
    · by_cases h2 : c ∈ LOWER_SECOND
      · have heq : encrypt_char_with_meta c s1 s2 =
            (shift_char c (-(s1 + s2)) ALPHA_LOWER, 'L') := by
          unfold encrypt_char_with_meta
          rw [if_pos hl, if_neg h1, if_pos h2]
        rw [heq]
        show shift_char (shift_char c (-(s1 + s2)) ALPHA_LOWER) (s1 + s2) ALPHA_LOWER = c
        have h := shift_shift_cancel alpha_lower_nodup alpha_lower_len
          (mem_LS_facts c h2).2 (-(s1 + s2))
        rwa [neg_neg] at h
      · have heq : encrypt_char_with_meta c s1 s2 = (c, '0') := by
          unfold encrypt_char_with_meta
          rw [if_pos hl, if_neg h1, if_neg h2]
        rw [heq]
        rfl
  · by_cases hu : isupper c
    · by_cases h3 : c ∈ UPPER_FIRST
      · have heq : encrypt_char_with_meta c s1 s2 =
            (shift_char c (-s1) ALPHA_UPPER, 'u') := by
          unfold encrypt_char_with_meta
          rw [if_neg hl, if_pos hu, if_pos h3]
        rw [heq]
        show shift_char (shift_char c (-s1) ALPHA_UPPER) s1 ALPHA_UPPER = c
        have h := shift_shift_cancel alpha_upper_nodup alpha_upper_len
          (mem_UF_facts c h3).2.2 (-s1)
        rwa [neg_neg] at h
      · by_cases h4 : c ∈ UPPER_SECOND
        · have heq : encrypt_char_with_meta c s1 s2 =
              (shift_char c (s2 ^ 2) ALPHA_UPPER, 'U') := by
            unfold encrypt_char_with_meta
            rw [if_neg hl, if_pos hu, if_neg h3, if_pos h4]
          rw [heq]
          show shift_char (shift_char c (s2 ^ 2) ALPHA_UPPER) (-(s2 ^ 2)) ALPHA_UPPER = c
          exact shift_shift_cancel alpha_upper_nodup alpha_upper_len
            (mem_US_facts c h4).2.2 _
        · have heq : encrypt_char_with_meta c s1 s2 = (c, '0') := by
            unfold encrypt_char_with_meta
            rw [if_neg hl, if_pos hu, if_neg h3, if_neg h4]
          rw [heq]
          rfl
    · have heq : encrypt_char_with_meta c s1 s2 = (c, '0') := by
        unfold encrypt_char_with_meta
        rw [if_neg hl, if_neg hu]
      rw [heq]
      rfl

/-- Unfolding equation for `encrypt_text_with_meta` on a cons cell. -/
theorem enc_meta_cons (c : Char) (rest : List Char) (s1 s2 : Int) :
    encrypt_text_with_meta (c :: rest) s1 s2 =
      ((encrypt_char_with_meta c s1 s2).1 :: (encrypt_text_with_meta rest s1 s2).1,
       (encrypt_char_with_meta c s1 s2).2 :: (encrypt_text_with_meta rest s1 s2).2) := rfl

/-- The ciphertext component has the length of the input. -/
theorem enc_meta_fst_len (text : List Char) (s1 s2 : Int) :
    (encrypt_text_with_meta text s1 s2).1.length = text.length := by
  induction text with
  | nil => rfl
  | cons c rest ih => simp [enc_meta_cons, ih]

/-- The metadata component has the length of the input. -/
theorem enc_meta_snd_len (text : List Char) (s1 s2 : Int) :
    (encrypt_text_with_meta text s1 s2).2.length = text.length := by
  induction text with
  | nil => rfl
  | cons c rest ih => simp [enc_meta_cons, ih]

/-- The position-wise metadata-directed inverse applied to the zipped
outputs of `encrypt_text_with_meta` recovers the input text. -/
theorem dec_enc_zip (text : List Char) (s1 s2 : Int) :
    (((encrypt_text_with_meta text s1 s2).1).zip
        (encrypt_text_with_meta text s1 s2).2).map
      (fun p => decrypt_meta_char p.1 p.2 s1 s2) = text := by
  induction text with
  | nil => rfl
  | cons c rest ih =>
      rw [enc_meta_cons]
      simp only [List.zip_cons_cons, List.map_cons]
      rw [decrypt_meta_char_encrypt, ih]

/-- The plain and metadata-producing per-character encoders agree on the
ciphertext character. -/
theorem encrypt_char_eq_meta_fst (c : Char) (s1 s2 : Int) :
    encrypt_char c s1 s2 = (encrypt_char_with_meta c s1 s2).1 := by
  unfold encrypt_char encrypt_char_with_meta
  split_ifs <;> rfl

/-- `_shift_char` on the lowercase alphabet is the spec's shift function
(the alphabet has 26 symbols). -/
theorem shift_char_eq_spec_lower (c : Char) (s : Int) :
    shift_char c s ALPHA_LOWER = spec_index_shift ALPHA_LOWER c s := rfl

/-- `_shift_char` on the uppercase alphabet is the spec's shift function. -/
theorem shift_char_eq_spec_upper (c : Char) (s : Int) :
    shift_char c s ALPHA_UPPER = spec_index_shift ALPHA_UPPER c s := rfl

/-- A metadata code outside the recognised `l`, `L`, `u`, `U` set sends the
ciphertext character through unchanged. -/
theorem decrypt_meta_char_unknown (c m : Char) (s1 s2 : Int)
    (h : m ∉ (['l', 'L', 'u', 'U'] : List Char)) :
    decrypt_meta_char c m s1 s2 = c := by
  have e1 : m ≠ 'l' := fun e => h (by rw [e]; decide)
  have e2 : m ≠ 'L' := fun e => h (by rw [e]; decide)
  have e3 : m ≠ 'u' := fun e => h (by rw [e]; decide)
  have e4 : m ≠ 'U' := fun e => h (by rw [e]; decide)
  unfold decrypt_meta_char
  rw [if_neg e1, if_neg e2, if_neg e3, if_neg e4]

/-- Position-wise version of the previous lemma for zipped inputs of
equal length. -/
theorem zip_map_unknown_meta (s1 s2 : Int) :
    ∀ ct md : List Char, ct.length = md.length →
      (∀ m ∈ md, m ∉ (['l', 'L', 'u', 'U'] : List Char)) →
      (ct.zip md).map (fun p => decrypt_meta_char p.1 p.2 s1 s2) = ct := by
  intro ct
  induction ct with
  | nil => intro md _ _; rfl
  | cons c rest ih =>
      intro md hlen hall
      cases md with
      | nil => simp at hlen
      | cons m mdr =>
          simp only [List.zip_cons_cons, List.map_cons]
          rw [decrypt_meta_char_unknown c m s1 s2 (hall m (List.mem_cons_self m mdr))]
          rw [ih mdr (by simpa using hlen) (fun x hx => hall x (List.mem_cons_of_mem m hx))]

/-! The claim theorems. -/

/-- C1: for every string and every integer key pair, metadata-assisted
decryption applied to the ciphertext and metadata produced by
metadata-producing encryption with the same keys returns the original
text exactly. -/
theorem C1_meta_roundtrip (text : List Char) (s1 s2 : Int) :
    decrypt_text_with_meta (encrypt_text_with_meta text s1 s2).1
      (encrypt_text_with_meta text s1 s2).2 s1 s2 = Except.ok text := by
  unfold decrypt_text_with_meta
  rw [if_neg (not_not_intro (by rw [enc_meta_fst_len, enc_meta_snd_len]))]
  rw [dec_enc_zip]

/-- C2 as stated is false on the code: in `"Hello, World!"` the letters
`e`, `l`, `d` lie in `a`–`m`, so they are classified lower_first (code
`'l'`), not lower_second, and the metadata string is not
`"uLLLL00ULLLL0"`. -/
theorem C2_concrete_counterexample :
    (encrypt_text_with_meta "Hello, World!".data 3 2).2 ≠ "uLLLL00ULLLL0".data ∧
    classify 'e' ≠ Category.lower_second := by
  refine ⟨by decide, by decide⟩

/-- C2 amended: `encrypt_text_with_meta "Hello, World!" 3 2` classifies
`H` upper_first, `e` lower_first, `l` lower_first, `l` lower_first,
`o` lower_second, `,` passthrough, space passthrough, `W` upper_second,
`o` lower_second, `r` lower_second, `l` lower_first, `d` lower_first,
`!` passthrough; the metadata string is exactly `"ulllL00ULLll0"`, and
decrypting the produced ciphertext with that metadata and keys 3, 2
returns `"Hello, World!"` exactly. -/
theorem C2_concrete_amended :
    "Hello, World!".data.map classify =
      [Category.upper_first, Category.lower_first, Category.lower_first,
       Category.lower_first, Category.lower_second, Category.passthrough,
       Category.passthrough, Category.upper_second, Category.lower_second,
       Category.lower_second, Category.lower_first, Category.lower_first,
       Category.passthrough] ∧
    (encrypt_text_with_meta "Hello, World!".data 3 2).2 = "ulllL00ULLll0".data ∧
    decrypt_text_with_meta (encrypt_text_with_meta "Hello, World!".data 3 2).1
      (encrypt_text_with_meta "Hello, World!".data 3 2).2 3 2 =
      Except.ok "Hello, World!".data := by
  refine ⟨by decide, by decide, ?_⟩
  rfl

/-- C3: metadata-assisted decryption fails with the length-mismatch error
exactly when the two input lengths differ, producing no output; on equal
lengths it is total and returns a string; in particular it fails on
ciphertext `"ab"` with metadata `"l"` and keys 3, 4. -/
theorem C3_length_mismatch (ct md : List Char) (s1 s2 : Int) :
    (ct.length ≠ md.length →
      decrypt_text_with_meta ct md s1 s2 =
        Except.error "Ciphertext and metadata lengths do not match") ∧
    (ct.length = md.length →
      ∃ out, decrypt_text_with_meta ct md s1 s2 = Except.ok out) ∧
    decrypt_text_with_meta "ab".data "l".data 3 4 =
      Except.error "Ciphertext and metadata lengths do not match" := by
  refine ⟨fun h => ?_, fun h => ?_, rfl⟩
  · unfold decrypt_text_with_meta
    rw [if_pos h]
  · exact ⟨_, by unfold decrypt_text_with_meta; rw [if_neg (not_not_intro h)]⟩

/-- Witness for C3: the mismatch branch at `("ab", "l", 3, 4)` and the
total branch at equal-length inputs. -/
theorem C3_length_mismatch_witness :
    decrypt_text_with_meta "ab".data "l".data 3 4 =
      Except.error "Ciphertext and metadata lengths do not match" ∧
    (∃ out, decrypt_text_with_meta "ab".data "xy".data 3 4 = Except.ok out) :=
  ⟨(C3_length_mismatch "ab".data "l".data 3 4).1 (by decide),
   (C3_length_mismatch "ab".data "xy".data 3 4).2.1 (by decide)⟩

/-- C4: the forward transform applies exactly the spec's category table —
lower_first shifts by `+(shift1*shift2)`, lower_second by
`-(shift1+shift2)`, upper_first by `-shift1`, upper_second by
`+(shift2*shift2)`, passthrough is unchanged — and every alphabet index is
taken at `(index + shift) mod 26` with the residue in `[0, 26)` for every
integer shift. -/
theorem C4_forward_table :
    (∀ (c : Char) (s1 s2 : Int), encrypt_char c s1 s2 = spec_encrypt_char c s1 s2) ∧
    (∀ idx s : Int, 0 ≤ (idx + s) % 26 ∧ (idx + s) % 26 < 26) := by
  constructor
  · intro c s1 s2
    by_cases h1 : c ∈ LOWER_FIRST
    · have hcls : classify c = Category.lower_first := by
        unfold classify; rw [if_pos h1]
      unfold spec_encrypt_char
      rw [hcls]
      show encrypt_char c s1 s2 = spec_index_shift ALPHA_LOWER c (s1 * s2)
      unfold encrypt_char
      rw [if_pos (mem_LF_facts c h1).1, if_pos h1]
      exact shift_char_eq_spec_lower c (s1 * s2)
    · by_cases h2 : c ∈ LOWER_SECOND
      · have hcls : classify c = Category.lower_second := by
          unfold classify; rw [if_neg h1, if_pos h2]
        unfold spec_encrypt_char
        rw [hcls]
        show encrypt_char c s1 s2 = spec_index_shift ALPHA_LOWER c (-(s1 + s2))
        unfold encrypt_char
        rw [if_pos (mem_LS_facts c h2).1, if_neg h1, if_pos h2]
        exact shift_char_eq_spec_lower c (-(s1 + s2))
      · by_cases h3 : c ∈ UPPER_FIRST
        · have hcls : classify c = Category.upper_first := by
            unfold classify; rw [if_neg h1, if_neg h2, if_pos h3]
          unfold spec_encrypt_char
          rw [hcls]
          show encrypt_char c s1 s2 = spec_index_shift ALPHA_UPPER c (-s1)
          unfold encrypt_char
          rw [if_neg (mem_UF_facts c h3).2.1, if_pos (mem_UF_facts c h3).1, if_pos h3]
          exact shift_char_eq_spec_upper c (-s1)
        · by_cases h4 : c ∈ UPPER_SECOND
          · have hcls : classify c = Category.upper_second := by
              unfold classify; rw [if_neg h1, if_neg h2, if_neg h3, if_pos h4]
            unfold spec_encrypt_char
            rw [hcls]
            show encrypt_char c s1 s2 = spec_index_shift ALPHA_UPPER c (s2 * s2)
            unfold encrypt_char
            rw [if_neg (mem_US_facts c h4).2.1, if_pos (mem_US_facts c h4).1,
              if_neg h3, if_pos h4]
            rw [pow_two]
            exact shift_char_eq_spec_upper c (s2 * s2)
          · have hcls : classify c = Category.passthrough := by
              unfold classify; rw [if_neg h1, if_neg h2, if_neg h3, if_neg h4]
            unfold spec_encrypt_char
            rw [hcls]
            show encrypt_char c s1 s2 = c
            unfold encrypt_char
            by_cases hl : islower c
            · rw [if_pos hl, if_neg h1, if_neg h2]
            · rw [if_neg hl]
              by_cases hu : isupper c
              · rw [if_pos hu, if_neg h3, if_neg h4]
              · rw [if_neg hu]
  · intro idx s
    exact ⟨Int.emod_nonneg _ (by norm_num), Int.emod_lt_of_pos _ (by norm_num)⟩

/-- C5: both encoders preserve the character count — the plain ciphertext,
the metadata-mode ciphertext and the metadata string all have the length
of the input text. -/
theorem C5_length_preservation (text : List Char) (s1 s2 : Int) :
    (encrypt_text text s1 s2).length = text.length ∧
    (encrypt_text_with_meta text s1 s2).1.length = text.length ∧
    (encrypt_text_with_meta text s1 s2).2.length = text.length :=
  ⟨by simp [encrypt_text], enc_meta_fst_len text s1 s2, enc_meta_snd_len text s1 s2⟩

/-- C6: the heuristic decode is a total per-character map; on a lowercase
character it accepts the lower_first inverse candidate exactly when that
candidate lies in `a`–`m` and otherwise applies the lower_second inverse
unconditionally, symmetrically for uppercase with the `A`–`M` test, and
leaves every other character unchanged. -/
theorem C6_heuristic_decode (ct : List Char) (s1 s2 : Int) (c : Char) :
    decrypt_text ct s1 s2 = ct.map (fun x => decrypt_char x s1 s2) ∧
    (islower c →
      (shift_char c (-(s1 * s2)) ALPHA_LOWER ∈ LOWER_FIRST →
        decrypt_char c s1 s2 = shift_char c (-(s1 * s2)) ALPHA_LOWER) ∧
      (shift_char c (-(s1 * s2)) ALPHA_LOWER ∉ LOWER_FIRST →
        decrypt_char c s1 s2 = shift_char c (s1 + s2) ALPHA_LOWER)) ∧
    (isupper c →
      (shift_char c s1 ALPHA_UPPER ∈ UPPER_FIRST →
        decrypt_char c s1 s2 = shift_char c s1 ALPHA_UPPER) ∧
      (shift_char c s1 ALPHA_UPPER ∉ UPPER_FIRST →
        decrypt_char c s1 s2 = shift_char c (-(s2 ^ 2)) ALPHA_UPPER)) ∧
    (¬ islower c → ¬ isupper c → decrypt_char c s1 s2 = c) := by
  refine ⟨rfl, fun hl => ⟨fun hc => ?_, fun hc => ?_⟩,
    fun hu => ⟨fun hc => ?_, fun hc => ?_⟩, fun hnl hnu => ?_⟩
  · unfold decrypt_char; rw [if_pos hl, if_pos hc]
  · unfold decrypt_char; rw [if_pos hl, if_neg hc]
  · have hnl : ¬ islower c := fun h => islower_not_isupper h hu
    unfold decrypt_char; rw [if_neg hnl, if_pos hu, if_pos hc]
  · have hnl : ¬ islower c := fun h => islower_not_isupper h hu
    unfold decrypt_char; rw [if_neg hnl, if_pos hu, if_neg hc]
  · unfold decrypt_char; rw [if_neg hnl, if_neg hnu]

/-- Witness for C6: the accepted lower_first candidate at `'r'`, the
unconditional lower_second fallback at `'c'`, and a passthrough
character, all with keys 3, 2. -/
theorem C6_heuristic_decode_witness :
    decrypt_char 'r' 3 2 = shift_char 'r' (-(3 * 2)) ALPHA_LOWER ∧
    decrypt_char 'c' 3 2 = shift_char 'c' (3 + 2) ALPHA_LOWER ∧
    decrypt_char '!' 3 2 = '!' :=
  ⟨((C6_heuristic_decode [] 3 2 'r').2.1 (by decide)).1 (by decide),
   ((C6_heuristic_decode [] 3 2 'c').2.1 (by decide)).2 (by decide),
   (C6_heuristic_decode [] 3 2 '!').2.2.2 (by decide) (by decide)⟩

/-- C7: a character that is neither an ASCII lowercase nor an ASCII
uppercase letter is a fixed point of every transform — plain and metadata
encryption, heuristic decryption, and metadata-assisted decryption under
any metadata code — and receives metadata code `'0'`. -/
theorem C7_passthrough_fixed (c : Char) (hnl : ¬ islower c) (hnu : ¬ isupper c)
    (s1 s2 : Int) (m : Char) :
    encrypt_char c s1 s2 = c ∧
    encrypt_char_with_meta c s1 s2 = (c, '0') ∧
    decrypt_char c s1 s2 = c ∧
    encrypt_text [c] s1 s2 = [c] ∧
    encrypt_text_with_meta [c] s1 s2 = ([c], ['0']) ∧
    decrypt_text [c] s1 s2 = [c] ∧
    decrypt_meta_char c m s1 s2 = c ∧
    decrypt_text_with_meta [c] [m] s1 s2 = Except.ok [c] := by
  have h1 : encrypt_char c s1 s2 = c := by
    unfold encrypt_char; rw [if_neg hnl, if_neg hnu]
  have h2 : encrypt_char_with_meta c s1 s2 = (c, '0') := by
    unfold encrypt_char_with_meta; rw [if_neg hnl, if_neg hnu]
  have h3 : decrypt_char c s1 s2 = c := by
    unfold decrypt_char; rw [if_neg hnl, if_neg hnu]
  have hLm : c ∉ ALPHA_LOWER := fun h => hnl (mem_alpha_lower_islower c h)
  have hUm : c ∉ ALPHA_UPPER := fun h => hnu (mem_alpha_upper_isupper c h)
  have h7 : decrypt_meta_char c m s1 s2 = c := by
    unfold decrypt_meta_char
    by_cases e1 : m = 'l'
    · rw [if_pos e1]; exact shift_char_of_not_mem hLm _
    · rw [if_neg e1]
      by_cases e2 : m = 'L'
      · rw [if_pos e2]; exact shift_char_of_not_mem hLm _
      · rw [if_neg e2]
        by_cases e3 : m = 'u'
        · rw [if_pos e3]; exact shift_char_of_not_mem hUm _
        · rw [if_neg e3]
          by_cases e4 : m = 'U'
          · rw [if_pos e4]; exact shift_char_of_not_mem hUm _
          · rw [if_neg e4]
  refine ⟨h1, h2, h3, by simp [encrypt_text, h1], by rw [enc_meta_cons, h2]; rfl,
    by simp [decrypt_text, h3], h7, ?_⟩
  unfold decrypt_text_with_meta
  rw [if_neg (not_not_intro (show ([c] : List Char).length = [m].length by simp))]
  simp [List.zip_cons_cons, h7]

/-- Witness for C7 at the exclamation mark with metadata code `'0'` and
keys 3, 2. -/
theorem C7_passthrough_fixed_witness :
    encrypt_char '!' 3 2 = '!' ∧
    decrypt_text_with_meta ['!'] ['0'] 3 2 = Except.ok ['!'] :=
  ⟨(C7_passthrough_fixed '!' (by decide) (by decide) 3 2 '0').1,
   (C7_passthrough_fixed '!' (by decide) (by decide) 3 2 '0').2.2.2.2.2.2.2⟩

/-- C8: both encoders are per-character maps, so they distribute over
string concatenation in the ciphertext and in the metadata. -/
theorem C8_concat_distributes (s t : List Char) (s1 s2 : Int) :
    encrypt_text (s ++ t) s1 s2 = encrypt_text s s1 s2 ++ encrypt_text t s1 s2 ∧
    (encrypt_text_with_meta (s ++ t) s1 s2).1 =
      (encrypt_text_with_meta s s1 s2).1 ++ (encrypt_text_with_meta t s1 s2).1 ∧
    (encrypt_text_with_meta (s ++ t) s1 s2).2 =
      (encrypt_text_with_meta s s1 s2).2 ++ (encrypt_text_with_meta t s1 s2).2 := by
  refine ⟨by simp [encrypt_text], ?_, ?_⟩ <;>
    induction s with
    | nil => rfl
    | cons c rest ih => simp [enc_meta_cons, ih]

/-- C9: the plain encoder returns exactly the ciphertext component of the
metadata-producing encoder. -/
theorem C9_plain_eq_meta_fst (text : List Char) (s1 s2 : Int) :
    encrypt_text text s1 s2 = (encrypt_text_with_meta text s1 s2).1 := by
  induction text with
  | nil => rfl
  | cons c rest ih =>
      rw [enc_meta_cons]
      show encrypt_char c s1 s2 :: encrypt_text rest s1 s2 = _
      rw [ih, encrypt_char_eq_meta_fst]

/-- C10: with equal input lengths, metadata-assisted decryption never
rejects a metadata symbol: any code outside `l`, `L`, `u`, `U` passes the
corresponding ciphertext character through unchanged, and the whole call
succeeds rather than raising an error. -/
theorem C10_unknown_meta_passthrough (ct md : List Char) (s1 s2 : Int) (c m : Char) :
    (m ∉ (['l', 'L', 'u', 'U'] : List Char) → decrypt_meta_char c m s1 s2 = c) ∧
    (ct.length = md.length →
      (∀ x ∈ md, x ∉ (['l', 'L', 'u', 'U'] : List Char)) →
      decrypt_text_with_meta ct md s1 s2 = Except.ok ct) := by
  refine ⟨fun h => decrypt_meta_char_unknown c m s1 s2 h, fun hlen hall => ?_⟩
  unfold decrypt_text_with_meta
  rw [if_neg (not_not_intro hlen)]
  rw [zip_map_unknown_meta s1 s2 ct md hlen hall]

/-- Witness for C10: the unknown code `'?'` on a single character and an
all-unknown metadata string over `"ab"`. -/
theorem C10_unknown_meta_passthrough_witness :
    decrypt_meta_char 'a' '?' 3 2 = 'a' ∧
    decrypt_text_with_meta "ab".data "?!".data 3 2 = Except.ok "ab".data :=
  ⟨(C10_unknown_meta_passthrough [] [] 3 2 'a' '?').1 (by decide),
   (C10_unknown_meta_passthrough "ab".data "?!".data 3 2 'a' '?').2
     (by decide) (by decide)⟩

end Encrypt
